import Mathlib

/-!
Verification of the hl7view core (hl7view/parser.py and hl7view/diff.py).

Python strings are modelled as `List Char`; every Python operation used by the
parser (one-character `str.split`, `str.join`, `str.strip`, `str.replace`,
`str.startswith`, `str.lstrip`, the regex substitutions of
`normalize_message`) is embedded as an executable Lean function on that model.
-/

set_option maxHeartbeats 1000000

namespace HL7

/-- Python strings, modelled as lists of characters. -/
abbrev Str := List Char

/-- Turn a Lean string literal into the `List Char` model. -/
def strLit (s : String) : Str := s.data

/-- Python `s.split(c)` for a one-character separator: always a non-empty
list of fragments, `"".split(c) = [""]`. -/
def splitOnChar (c : Char) : Str → List Str
  | [] => [[]]
  | x :: xs =>
    if x = c then [] :: splitOnChar c xs
    else
      match splitOnChar c xs with
      | [] => [[x]]
      | h :: t => (x :: h) :: t

/-- Python `c.join(parts)` for a one-character separator. -/
def joinSep (c : Char) : List Str → Str
  | [] => []
  | [x] => x
  | x :: y :: t => x ++ c :: joinSep c (y :: t)

theorem splitOnChar_ne_nil (c : Char) (s : Str) : splitOnChar c s ≠ [] := by
  cases s with
  | nil => simp [splitOnChar]
  | cons x xs =>
    simp only [splitOnChar]
    split
    · simp
    · split <;> simp

theorem joinSep_splitOnChar (c : Char) (s : Str) :
    joinSep c (splitOnChar c s) = s := by
  induction s with
  | nil => rfl
  | cons x xs ih =>
    simp only [splitOnChar]
    split
    · rename_i hx
      rcases h : splitOnChar c xs with _ | ⟨a, t⟩
      · exact absurd h (splitOnChar_ne_nil c xs)
      · rw [h] at ih
        simp [joinSep, ← ih, hx]
    · rcases h : splitOnChar c xs with _ | ⟨a, t⟩
      · exact absurd h (splitOnChar_ne_nil c xs)
      · rw [h] at ih
        cases t with
        | nil => simp_all [joinSep]
        | cons b t' => simp_all [joinSep]

theorem two_le_splitOnChar_length (c : Char) (s : Str) (h : c ∈ s) :
    2 ≤ (splitOnChar c s).length := by
  induction s with
  | nil => simp at h
  | cons x xs ih =>
    simp only [splitOnChar]
    split
    · have := splitOnChar_ne_nil c xs
      rcases hs : splitOnChar c xs with _ | ⟨a, t⟩
      · exact absurd hs this
      · simp
    · rename_i hx
      have hc : c ∈ xs := by
        rcases List.mem_cons.mp h with h1 | h1
        · exact absurd h1.symm hx
        · exact h1
      rcases hs : splitOnChar c xs with _ | ⟨a, t⟩
      · exact absurd hs (splitOnChar_ne_nil c xs)
      · have := ih hc
        rw [hs] at this
        simpa using this

/-- Python `s.startswith(p)`. -/
def startswith : Str → Str → Bool
  | _, [] => true
  | [], _ :: _ => false
  | x :: xs, y :: ys => x = y && startswith xs ys

/-- The characters Python's default `str.strip()` removes (the ASCII and
Latin-1 whitespace relevant to this byte-oriented format). -/
def isPySpace (c : Char) : Bool :=
  c = ' ' || c = '\t' || c = '\n' || c = '\r' ||
  c = '\x0b' || c = '\x0c' ||
  c = '\x1c' || c = '\x1d' || c = '\x1e' || c = '\x1f' ||
  c = '\x85' || c = '\xa0'

/-- Python `s.strip()`. -/
def pyStrip (s : Str) : Str :=
  ((s.dropWhile isPySpace).reverse.dropWhile isPySpace).reverse

/-! ## normalize_message (parser.py lines 47-116) -/

/-- The substitution `re.sub(r'^\x0b', '', content)`: drop one leading VT byte. -/
def stripLeadingVT : Str → Str
  | '\x0b' :: rest => rest
  | s => s

/-- The substitution `re.sub(r'\x1c[\r\n]*$', '', content)`: if the string ends in an FS byte
followed by a (possibly empty) run of CR/LF characters, remove that suffix. -/
def stripTrailingFrame (s : Str) : Str :=
  match s.reverse.dropWhile (fun c => c = '\r' || c = '\n') with
  | '\x1c' :: rest => rest.reverse
  | _ => s

/-- Case-insensitive match of a token against the start of the input
(`re.IGNORECASE` on ASCII tokens). -/
def matchTokenCI : Str → Str → Bool
  | [], _ => true
  | _ :: _, [] => false
  | t :: ts, c :: cs => (t.toLower = c.toLower) && matchTokenCI ts cs

/-- One left-to-right pass of `re.sub(tok1|tok2, repl, s, flags=IGNORECASE)`
for four-character tokens (all the log-artifact tokens are four characters
long, so a match consumes exactly four input characters). -/
def replaceTok4 (toks : List Str) (repl : Str) : Str → Str
  | c1 :: c2 :: c3 :: c4 :: rest =>
    if toks.any (fun t => matchTokenCI t (c1 :: c2 :: c3 :: c4 :: rest)) then
      repl ++ replaceTok4 toks repl rest
    else
      c1 :: replaceTok4 toks repl (c2 :: c3 :: c4 :: rest)
  | [] => []
  | s => s

/-- Python `content.replace('\r\n', '\r')`. -/
def replaceCRLF : Str → Str
  | '\r' :: '\n' :: rest => '\r' :: replaceCRLF rest
  | c :: rest => c :: replaceCRLF rest
  | [] => []

/-- The fixed segment codes of the single-line boundary pattern
(parser.py line 111). -/
def segCodes : List Str :=
  ["MSH", "MSA", "EVN", "PID", "PV1", "PV2", "NK1", "ORC", "OBR", "OBX",
   "DG1", "IN1", "AL1", "GT1", "NTE", "ERR", "QRD", "QRF", "MRG", "SCH",
   "TXA", "DSP", "ZDS", "ZPD"].map strLit

/-- Does the suffix start with a recognized segment code (fixed list or the
`Z[A-Z][A-Z0-9]` wildcard) immediately followed by the field separator? -/
def isBoundary (s : Str) : Bool :=
  segCodes.any (fun code => startswith s (code ++ ['|'])) ||
  (match s with
   | 'Z' :: c1 :: c2 :: '|' :: _ => c1.isUpper && (c2.isUpper || c2.isDigit)
   | _ => false)

def anyBoundarySuffix : Str → Bool
  | [] => false
  | c :: cs => isBoundary (c :: cs) || anyBoundarySuffix cs

/-- The search `re.search(seg_pattern, content)`: the lookbehind `(?<=.)` restricts
matches to positions at index at least one. -/
def hasSegBoundary : Str → Bool
  | [] => false
  | _ :: cs => anyBoundarySuffix cs

def splitSegScan (cur : Str) : Str → List Str
  | [] => [cur.reverse]
  | c :: cs =>
    if isBoundary (c :: cs) then cur.reverse :: splitSegScan [c] cs
    else splitSegScan (c :: cur) cs

/-- The split `re.split(seg_pattern, content)`: split just before every boundary
position at index at least one. -/
def splitSegBoundaries : Str → List Str
  | [] => [[]]
  | c :: cs => splitSegScan [c] cs

/-- The spurious-split repair loop of parser.py lines 77-101, with the
accumulated `result_parts` kept in reverse order. -/
def repairLoop : Option Str → List Str → List Str → List Str
  | none, parts, [] => parts.reverse
  | some p, parts, [] => (p :: parts).reverse
  | none, parts, current :: rest => repairLoop (some current) parts rest
  | some p, parts, current :: rest =>
    match current with
    | [] => repairLoop (some []) (p :: parts) rest
    | c :: cs =>
      if c = '|' || startswith current ['\n', '|'] ||
          (c = '\n' && current.length < 4) then
        repairLoop
          (some (if c = '\n' then current.dropWhile (fun x => x = '\n')
                 else current))
          (p :: parts) rest
      else if c = '\n' && decide (4 < current.length) &&
          current.getD 4 '|' ≠ '|' then
        repairLoop (some ('~' :: cs)) (p :: parts) rest
      else
        repairLoop (some current) (['\r'] :: p :: parts) rest

/-- The carriage-return branch of `normalize_message` (parser.py lines
75-104): split, run the repair loop, rejoin on CR, re-split and drop blank
fragments. -/
def repairSplit (content : Str) : List Str :=
  let fragments := splitOnChar '\r' content
  let parts := repairLoop none [] fragments
  let rejoined := joinSep '\r' parts
  (splitOnChar '\r' rejoined).filter (fun s => decide (pyStrip s ≠ []))

/-- parser.py `normalize_message`: normalize raw HL7 text into a list of
segment strings. -/
def normalize_message (raw : Str) : List Str :=
  let c1 := stripLeadingVT raw
  let c2 := stripTrailingFrame c1
  let c3 := replaceTok4 [strLit "<VT>", strLit "<SB>"] [] c2
  let c4 := replaceTok4 [strLit "<FS>", strLit "<EB>"] [] c3
  let c5 := replaceTok4 [strLit "<CR>"] ['\r'] c4
  let c6 := (c5.filter (fun ch => decide (ch ≠ '\x0b'))).filter
    (fun ch => decide (ch ≠ '\x1c'))
  let content := pyStrip c6
  if content = [] then []
  else
    let content2 := replaceCRLF content
    if '\r' ∈ content2 then repairSplit content2
    else if '\n' ∈ content2 then
      (splitOnChar '\n' content2).filter (fun s => decide (pyStrip s ≠ []))
    else if hasSegBoundary content2 then
      (splitSegBoundaries content2).filter (fun s => decide (pyStrip s ≠ []))
    else [content2]

/-! ## Data model (parser.py lines 7-44) -/

structure Component where
  index : Nat
  value : Str
  subcomponents : List Str
deriving DecidableEq

structure Repetition where
  index : Nat
  value : Str
  components : List Component
deriving DecidableEq

structure Field where
  field_num : Nat
  address : Str
  value : Str
  raw_value : Str
  components : List Component
  repetitions : List Repetition
deriving DecidableEq

structure Segment where
  name : Str
  rep_index : Nat
  fields : List Field
  raw_line : Str
deriving DecidableEq

structure ParsedMessage where
  segments : List Segment
  version : Option Str
  message_type : Option Str
  declared_charset : Option Str
deriving DecidableEq

def compDefault : Component := ⟨0, [], []⟩

def repDefault : Repetition := ⟨0, [], []⟩

def fldDefault : Field := ⟨0, [], [], [], [], []⟩

def segDefault : Segment := ⟨[], 0, [], []⟩

def msgDefault : ParsedMessage := ⟨[], none, none, none⟩

/-! ## Field decomposition (parser.py lines 119-199) -/

/-- parser.py `split_components`: split a field value into components on the
component separator, and subcomponents on the subcomponent separator. -/
def split_components (value : Str) : List Component :=
  if value = [] ∨ '^' ∉ value then []
  else
    (splitOnChar '^' value).enum.map
      (fun p => ⟨p.1 + 1, p.2,
        if '&' ∈ p.2 then splitOnChar '&' p.2 else []⟩)

/-- The repetition list built by `_parse_field` / `reparse_field`:
1-based indices, each repetition independently split into components. -/
def mkRepetitions (reps : List Str) : List Repetition :=
  reps.enum.map (fun p => ⟨p.1 + 1, p.2, split_components p.2⟩)

/-- parser.py `_parse_field`: parse a single field value into components and
repetitions. -/
def _parse_field (address : Str) (field_num : Nat) (raw_value : Str) : Field :=
  let f : Field := ⟨field_num, address, raw_value, raw_value, [], []⟩
  if raw_value = [] then f
  else if '~' ∈ raw_value then
    let reps := splitOnChar '~' raw_value
    let repetitions := mkRepetitions reps
    { f with value := reps.headD [],
             repetitions := repetitions,
             components := (repetitions.headD repDefault).components }
  else
    { f with components := split_components raw_value }

/-- parser.py `reparse_field`, as the pure function the in-place mutation
computes: update a Field's value/components/repetitions from a new
raw_value. -/
def reparse_field (f : Field) (new_raw : Str) : Field :=
  if new_raw = [] then
    { f with raw_value := new_raw, value := [], components := [],
             repetitions := [] }
  else if '~' ∈ new_raw then
    let reps := splitOnChar '~' new_raw
    let repetitions := mkRepetitions reps
    { f with raw_value := new_raw, value := reps.headD [],
             repetitions := repetitions,
             components := (repetitions.headD repDefault).components }
  else
    { f with raw_value := new_raw, value := new_raw,
             components := split_components new_raw, repetitions := [] }

/-- parser.py `rebuild_raw_line`: rebuild a segment's raw line from its field
values (for MSH, field 1 is implicit in the literal prefix). -/
def rebuild_raw_line (seg_name : Str) (fields : List Field) : Str :=
  if seg_name = strLit "MSH" then
    strLit "MSH|" ++
      joinSep '|' ((fields.filter (fun f => decide (f.field_num ≠ 1))).map
        (fun f => f.raw_value))
  else
    seg_name ++ '|' :: joinSep '|' (fields.map (fun f => f.raw_value))

/-! ## Segment construction and parse_hl7 (parser.py lines 202-275) -/

def natToStr (n : Nat) : Str := (Nat.repr n).data

/-- Address string for an MSH field: always `MSH-{field_num}`. -/
def mshAddr (field_num : Nat) : Str := strLit "MSH-" ++ natToStr field_num

/-- Address string for a non-MSH field: `{code}[{rep}]-{num}` when the
occurrence index exceeds one, else `{code}-{num}`. -/
def segAddr (seg_name : Str) (rep : Nat) (field_num : Nat) : Str :=
  if rep > 1 then
    seg_name ++ '[' :: natToStr rep ++ ']' :: '-' :: natToStr field_num
  else
    seg_name ++ '-' :: natToStr field_num

/-- The Python loops `for j in range(...): seg.fields.append(_parse_field
(addr, field_num, fields[j]))`, with `field_num` starting at `fnum` and
increasing by one per token. -/
def buildFieldsFrom (mkA : Nat → Str) (fnum : Nat) : List Str → List Field
  | [] => []
  | t :: ts => _parse_field (mkA fnum) fnum t :: buildFieldsFrom mkA (fnum + 1) ts

/-- MSH-1: the synthesized field-separator field. -/
def mshField1 : Field := ⟨1, strLit "MSH-1", ['|'], ['|'], [], []⟩

/-- MSH-2: the encoding-characters token, copied verbatim. -/
def mshField2 (t : Str) : Field := ⟨2, strLit "MSH-2", t, t, [], []⟩

/-- The field list of one segment (parser.py lines 227-251). `rest` is the
token list after the segment code. -/
def buildSegFields (seg_name : Str) (rep : Nat) (rest : List Str) : List Field :=
  if seg_name = strLit "MSH" then
    match rest with
    | [] => [mshField1]
    | t1 :: ts => mshField1 :: mshField2 t1 :: buildFieldsFrom mshAddr 3 ts
  else
    buildFieldsFrom (fun n => segAddr seg_name rep n) 1 rest

/-- MSH metadata: version from field 12, text before any component
separator (parser.py lines 255-260). -/
def extractVersion (seg : Segment) (old : Option Str) : Option Str :=
  match seg.fields.find? (fun f => f.field_num == 12) with
  | none => old
  | some vf =>
    some (if vf.value ≠ [] ∧ '^' ∈ vf.value then
            (splitOnChar '^' vf.value).headD []
          else vf.value)

/-- MSH metadata: message type from field 9 (parser.py lines 262-264). -/
def extractMsgType (seg : Segment) (old : Option Str) : Option Str :=
  match seg.fields.find? (fun f => f.field_num == 9) with
  | none => old
  | some mf => some mf.value

/-- MSH metadata: declared charset from field 18, text before any repetition
separator (parser.py lines 266-271). -/
def extractCharset (seg : Segment) (old : Option Str) : Option Str :=
  match seg.fields.find? (fun f => f.field_num == 18) with
  | none => old
  | some cf =>
    some (if '~' ∈ cf.value then (splitOnChar '~' cf.value).headD []
          else cf.value)

/-- The running state of one `parse_hl7` call: the per-code occurrence
counters (`segment_counts`, a dict defaulting to zero) and the accumulated
output. -/
structure ParseState where
  counts : Str → Nat
  segs : List Segment
  version : Option Str
  message_type : Option Str
  declared_charset : Option Str

def initState : ParseState := ⟨fun _ => 0, [], none, none, none⟩

/-- The body of the `for seg_line in segments_raw` loop of `parse_hl7`
(parser.py lines 211-273). -/
def parseStep (st : ParseState) (seg_line : Str) : ParseState :=
  match splitOnChar '|' seg_line with
  | [] => st
  | seg_name :: rest =>
    if seg_name.length < 2 then st
    else
      let cnt := st.counts seg_name + 1
      let counts2 := fun n => if n = seg_name then cnt else st.counts n
      let seg : Segment := ⟨seg_name, cnt, buildSegFields seg_name cnt rest, seg_line⟩
      if seg_name = strLit "MSH" then
        { counts := counts2, segs := st.segs ++ [seg],
          version := extractVersion seg st.version,
          message_type := extractMsgType seg st.message_type,
          declared_charset := extractCharset seg st.declared_charset }
      else
        { st with counts := counts2, segs := st.segs ++ [seg] }

/-- parser.py `parse_hl7`: parse raw HL7 text into a ParsedMessage, or
`none` if empty. -/
def parse_hl7 (raw : Str) : Option ParsedMessage :=
  let segments_raw := normalize_message raw
  if segments_raw = [] then none
  else
    let st := segments_raw.foldl parseStep initState
    some ⟨st.segs, st.version, st.message_type, st.declared_charset⟩

/-! ## Diff engine (diff.py) -/

structure FieldDiff where
  address : Str
  field_num : Nat
  status : Str
  value_a : Option Str
  value_b : Option Str
  field_a : Option Field
  field_b : Option Field
deriving DecidableEq

structure SegmentDiff where
  name : Str
  rep_index : Nat
  status : Str
  field_diffs : List FieldDiff
deriving DecidableEq

/-- The `counts` dict of `diff_messages`. -/
structure Summary where
  total_fields : Nat
  identical : Nat
  modified : Nat
  a_only : Nat
  b_only : Nat
deriving DecidableEq

structure MessageDiff where
  segment_diffs : List SegmentDiff
  summary : Summary
  version_a : Option Str
  version_b : Option Str
  type_a : Option Str
  type_b : Option Str
deriving DecidableEq

def stIdentical : Str := strLit "identical"

def stModified : Str := strLit "modified"

def stAOnly : Str := strLit "a_only"

def stBOnly : Str := strLit "b_only"

/-- diff.py `_make_address`. -/
def mkAddress (seg_name : Str) (rep : Nat) (field_num : Nat) : Str :=
  if rep > 1 then
    seg_name ++ '[' :: natToStr rep ++ ']' :: '-' :: natToStr field_num
  else
    seg_name ++ '-' :: natToStr field_num

/-- Lookup in the dict `{_seg_key(seg): seg}`: a later segment with the same
key overwrites an earlier one, so the last match wins. -/
def segLookup (segs : List Segment) (key : Str × Nat) : Option Segment :=
  segs.foldl
    (fun acc s => if s.name = key.1 ∧ s.rep_index = key.2 then some s else acc)
    none

/-- Lookup in the dict `{f.field_num: f}` built by `_build_field_map`:
last match wins. -/
def fieldLookup (fields : List Field) (fnum : Nat) : Option Field :=
  fields.foldl
    (fun acc f => if f.field_num = fnum then some f else acc)
    none

/-- The key `(seg.name, seg.rep_index)` for every segment, in message order. -/
def segKeys (m : ParsedMessage) : List (Str × Nat) :=
  m.segments.map (fun s => (s.name, s.rep_index))

/-- The A-biased stable union of segment keys (diff.py lines 69-74):
A's keys in order, then any B key not already present. -/
def addBKeys (acc : List (Str × Nat)) : List (Str × Nat) → List (Str × Nat)
  | [] => acc
  | k :: ks => if k ∈ acc then addBKeys acc ks else addBKeys (acc ++ [k]) ks

def insertSorted (n : Nat) : List Nat → List Nat
  | [] => [n]
  | m :: ms => if n ≤ m then n :: m :: ms else m :: insertSorted n ms

def sortNats : List Nat → List Nat
  | [] => []
  | n :: ns => insertSorted n (sortNats ns)

def dedupNats : List Nat → List Nat
  | [] => []
  | n :: ns => if n ∈ ns then dedupNats ns else n :: dedupNats ns

/-- The field-number union `sorted(set(fields_a.keys()) | set(fields_b.keys()))`. -/
def fnumsUnion (fa fb : List Field) : List Nat :=
  sortNats (dedupNats (fa.map (fun f => f.field_num) ++
    fb.map (fun f => f.field_num)))

def bumpIdentical (c : Summary) : Summary :=
  { c with identical := c.identical + 1, total_fields := c.total_fields + 1 }

def bumpModified (c : Summary) : Summary :=
  { c with modified := c.modified + 1, total_fields := c.total_fields + 1 }

def bumpAOnly (c : Summary) : Summary :=
  { c with a_only := c.a_only + 1, total_fields := c.total_fields + 1 }

def bumpBOnly (c : Summary) : Summary :=
  { c with b_only := c.b_only + 1, total_fields := c.total_fields + 1 }

/-- The segment-only-in-A loop (diff.py lines 84-101): one `a_only` field
diff per field, counting as it goes. -/
def aOnlyLoop (name : Str) (rep : Nat) (c : Summary) :
    List Field → List FieldDiff × Summary
  | [] => ([], c)
  | f :: fs =>
    let fd : FieldDiff :=
      ⟨mkAddress name rep f.field_num, f.field_num, stAOnly,
       some f.raw_value, none, some f, none⟩
    let r := aOnlyLoop name rep (bumpAOnly c) fs
    (fd :: r.1, r.2)

/-- The segment-only-in-B loop (diff.py lines 103-120). -/
def bOnlyLoop (name : Str) (rep : Nat) (c : Summary) :
    List Field → List FieldDiff × Summary
  | [] => ([], c)
  | f :: fs =>
    let fd : FieldDiff :=
      ⟨mkAddress name rep f.field_num, f.field_num, stBOnly,
       none, some f.raw_value, none, some f⟩
    let r := bOnlyLoop name rep (bumpBOnly c) fs
    (fd :: r.1, r.2)

/-- The `for fnum in all_fnums` loop of the both-sides branch (diff.py lines
131-173). A field number found on neither side would make the Python crash
on `fa.raw_value`; that is the `none` result. -/
def bothLoop (name : Str) (rep : Nat) (fa fb : List Field) (st : Str)
    (c : Summary) : List Nat → Option (List FieldDiff × Str × Summary)
  | [] => some ([], st, c)
  | fnum :: rest =>
    match fieldLookup fa fnum, fieldLookup fb fnum with
    | some a, none =>
      let fd : FieldDiff :=
        ⟨mkAddress name rep fnum, fnum, stAOnly,
         some a.raw_value, none, some a, none⟩
      (bothLoop name rep fa fb stModified (bumpAOnly c) rest).map
        (fun r => (fd :: r.1, r.2.1, r.2.2))
    | none, some b =>
      let fd : FieldDiff :=
        ⟨mkAddress name rep fnum, fnum, stBOnly,
         none, some b.raw_value, none, some b⟩
      (bothLoop name rep fa fb stModified (bumpBOnly c) rest).map
        (fun r => (fd :: r.1, r.2.1, r.2.2))
    | some a, some b =>
      if a.raw_value = b.raw_value then
        let fd : FieldDiff :=
          ⟨mkAddress name rep fnum, fnum, stIdentical,
           some a.raw_value, some b.raw_value, some a, some b⟩
        (bothLoop name rep fa fb st (bumpIdentical c) rest).map
          (fun r => (fd :: r.1, r.2.1, r.2.2))
      else
        let fd : FieldDiff :=
          ⟨mkAddress name rep fnum, fnum, stModified,
           some a.raw_value, some b.raw_value, some a, some b⟩
        (bothLoop name rep fa fb stModified (bumpModified c) rest).map
          (fun r => (fd :: r.1, r.2.1, r.2.2))
    | none, none => none

/-- The `for key in all_keys` loop of `diff_messages` (diff.py lines
79-178). A key found in neither side's map would make the Python crash in
`_build_field_map(None)`; that is the `none` result. -/
def diffKeysLoop (pa pb : ParsedMessage) (c : Summary) :
    List (Str × Nat) → Option (List SegmentDiff × Summary)
  | [] => some ([], c)
  | key :: rest =>
    match segLookup pa.segments key, segLookup pb.segments key with
    | some sa, none =>
      let r := aOnlyLoop key.1 key.2 c sa.fields
      (diffKeysLoop pa pb r.2 rest).map
        (fun p => (⟨key.1, key.2, stAOnly, r.1⟩ :: p.1, p.2))
    | none, some sb =>
      let r := bOnlyLoop key.1 key.2 c sb.fields
      (diffKeysLoop pa pb r.2 rest).map
        (fun p => (⟨key.1, key.2, stBOnly, r.1⟩ :: p.1, p.2))
    | some sa, some sb =>
      match bothLoop key.1 key.2 sa.fields sb.fields stIdentical c
          (fnumsUnion sa.fields sb.fields) with
      | none => none
      | some r =>
        (diffKeysLoop pa pb r.2.2 rest).map
          (fun p => (⟨key.1, key.2, r.2.1, r.1⟩ :: p.1, p.2))
    | none, none => none

/-- diff.py `diff_messages`: compare two ParsedMessage trees field by
field. -/
def diff_messages (pa pb : ParsedMessage) : Option MessageDiff :=
  let all_keys := addBKeys (segKeys pa) (segKeys pb)
  match diffKeysLoop pa pb ⟨0, 0, 0, 0, 0⟩ all_keys with
  | none => none
  | some r =>
    some ⟨r.1, r.2, pa.version, pb.version, pa.message_type, pb.message_type⟩

/-! ## Basic lemmas about the field builders -/

theorem parse_field_field_num (a : Str) (n : Nat) (r : Str) :
    (_parse_field a n r).field_num = n := by
  by_cases hr : r = [] <;> by_cases ht : '~' ∈ r <;>
    simp [_parse_field, hr, ht]

theorem parse_field_raw_value (a : Str) (n : Nat) (r : Str) :
    (_parse_field a n r).raw_value = r := by
  by_cases hr : r = [] <;> by_cases ht : '~' ∈ r <;>
    simp [_parse_field, hr, ht]

theorem mkRepetitions_length (l : List Str) :
    (mkRepetitions l).length = l.length := by
  simp [mkRepetitions]

theorem mkRepetitions_headD (r0 : Str) (rs : List Str) :
    (mkRepetitions (r0 :: rs)).headD repDefault =
      ⟨1, r0, split_components r0⟩ := rfl

/-- C4: a field value with no component separator has zero components;
otherwise the component values are the in-order split on the component
separator, and within each component the subcomponent list is empty when
there is no subcomponent separator and otherwise is the split on it. -/
theorem split_components_spec (v : Str) :
    ((v = [] ∨ '^' ∉ v) → split_components v = []) ∧
    ('^' ∈ v → (split_components v).map Component.value = splitOnChar '^' v) ∧
    (∀ c ∈ split_components v,
      ('&' ∉ c.value → c.subcomponents = []) ∧
      ('&' ∈ c.value → c.subcomponents = splitOnChar '&' c.value)) := by
  refine ⟨?_, ?_, ?_⟩
  · intro h
    simp only [split_components]
    rw [if_pos h]
  · intro h
    have hne : ¬ (v = [] ∨ '^' ∉ v) := by
      rintro (rfl | hn)
      · simp at h
      · exact hn h
    simp only [split_components, if_neg hne, List.map_map]
    have : (Component.value ∘ fun p : Nat × Str =>
        (⟨p.1 + 1, p.2, if '&' ∈ p.2 then splitOnChar '&' p.2 else []⟩ :
          Component)) = Prod.snd := by
      funext p
      rfl
    rw [this, List.enum_map_snd]
  · intro c hc
    simp only [split_components] at hc
    by_cases h : v = [] ∨ '^' ∉ v
    · rw [if_pos h] at hc
      simp at hc
    · rw [if_neg h] at hc
      obtain ⟨p, _, rfl⟩ := List.mem_map.mp hc
      constructor
      · intro hn
        simp only at hn ⊢
        rw [if_neg hn]
      · intro hy
        simp only at hy ⊢
        rw [if_pos hy]

/-- Witness for `split_components_spec` at the spec's own examples. -/
theorem split_components_spec_witness :
    split_components (strLit "ABC") = [] ∧
    (split_components (strLit "ABC^DEF")).map Component.value =
      splitOnChar '^' (strLit "ABC^DEF") ∧
    ((split_components (strLit "X^A&1&2")).getD 1 compDefault).subcomponents =
      splitOnChar '&'
        ((split_components (strLit "X^A&1&2")).getD 1 compDefault).value :=
  ⟨(split_components_spec (strLit "ABC")).1 (Or.inr (by decide)),
   (split_components_spec (strLit "ABC^DEF")).2.1 (by decide),
   ((split_components_spec (strLit "X^A&1&2")).2.2 _ (by decide)).2 (by decide)⟩

/-- C10: a parsed field's repetition list is never of length exactly one:
it is empty when the raw value is empty or has no repetition separator, and
otherwise has at least two entries, with the field's display value and
component list mirroring repetition 1.  Holds for `_parse_field` and for
`reparse_field`. -/
theorem repetitions_never_singleton (a : Str) (n : Nat) (r : Str) (f0 : Field) :
    ((_parse_field a n r).repetitions.length ≠ 1 ∧
     ((r = [] ∨ '~' ∉ r) → (_parse_field a n r).repetitions = []) ∧
     ((_parse_field a n r).repetitions ≠ [] →
       2 ≤ (_parse_field a n r).repetitions.length ∧
       (_parse_field a n r).value =
         ((_parse_field a n r).repetitions.headD repDefault).value ∧
       (_parse_field a n r).components =
         ((_parse_field a n r).repetitions.headD repDefault).components)) ∧
    ((reparse_field f0 r).repetitions.length ≠ 1 ∧
     ((r = [] ∨ '~' ∉ r) → (reparse_field f0 r).repetitions = []) ∧
     ((reparse_field f0 r).repetitions ≠ [] →
       2 ≤ (reparse_field f0 r).repetitions.length ∧
       (reparse_field f0 r).value =
         ((reparse_field f0 r).repetitions.headD repDefault).value ∧
       (reparse_field f0 r).components =
         ((reparse_field f0 r).repetitions.headD repDefault).components)) := by
  by_cases hr : r = []
  · subst hr
    simp [_parse_field, reparse_field]
  · by_cases ht : '~' ∈ r
    · have hlen : 2 ≤ (splitOnChar '~' r).length :=
        two_le_splitOnChar_length '~' r ht
      obtain ⟨r0, rs, hsplit⟩ : ∃ r0 rs, splitOnChar '~' r = r0 :: rs := by
        rcases hs : splitOnChar '~' r with _ | ⟨r0, rs⟩
        · exact absurd hs (splitOnChar_ne_nil '~' r)
        · exact ⟨r0, rs, rfl⟩
      rw [hsplit] at hlen
      constructor
      · simp only [_parse_field, if_neg hr, if_pos ht, hsplit]
        refine ⟨?_, ?_, ?_⟩
        · rw [mkRepetitions_length]
          omega
        · rintro (rfl | hn)
          · exact absurd rfl hr
          · exact absurd ht hn
        · intro _
          refine ⟨?_, ?_, ?_⟩
          · rw [mkRepetitions_length]
            exact hlen
          · rfl
          · trivial
      · simp only [reparse_field, if_neg hr, if_pos ht, hsplit]
        refine ⟨?_, ?_, ?_⟩
        · rw [mkRepetitions_length]
          omega
        · rintro (rfl | hn)
          · exact absurd rfl hr
          · exact absurd ht hn
        · intro _
          refine ⟨?_, ?_, ?_⟩
          · rw [mkRepetitions_length]
            exact hlen
          · rfl
          · trivial
    · simp [_parse_field, reparse_field, hr, ht]

/-- Witness for `repetitions_never_singleton` at raw value `111~222`. -/
theorem repetitions_never_singleton_witness :
    (_parse_field (strLit "PID-3") 3 (strLit "111~222")).repetitions ≠ [] ∧
    2 ≤ (_parse_field (strLit "PID-3") 3 (strLit "111~222")).repetitions.length ∧
    (_parse_field (strLit "PID-3") 3 (strLit "111~222")).value =
      ((_parse_field (strLit "PID-3") 3
        (strLit "111~222")).repetitions.headD repDefault).value ∧
    (strLit "x" = [] ∨ '~' ∉ strLit "x") ∧
    (reparse_field fldDefault (strLit "x")).repetitions = [] :=
  ⟨by decide,
   ((repetitions_never_singleton (strLit "PID-3") 3 (strLit "111~222")
      fldDefault).1.2.2 (by decide)).1,
   ((repetitions_never_singleton (strLit "PID-3") 3 (strLit "111~222")
      fldDefault).1.2.2 (by decide)).2.1,
   by decide,
   (repetitions_never_singleton (strLit "PID-3") 3 (strLit "x")
      fldDefault).2.2.1 (by decide)⟩

/-- C6: after `reparse_field(f, new_raw)` the field's `raw_value` is
`new_raw` and its derived state (value, components, repetitions) is exactly
what the fresh decomposition `_parse_field` produces for `new_raw`; in
particular an empty `new_raw` fully clears the derived state. -/
theorem reparse_field_matches_parse (f : Field) (r : Str) :
    reparse_field f r =
      { f with raw_value := r,
               value := (_parse_field f.address f.field_num r).value,
               components := (_parse_field f.address f.field_num r).components,
               repetitions := (_parse_field f.address f.field_num r).repetitions } ∧
    (r = [] → reparse_field f r =
      { f with raw_value := [], value := [], components := [],
               repetitions := [] }) := by
  constructor
  · by_cases hr : r = []
    · subst hr
      simp [reparse_field, _parse_field]
    · by_cases ht : '~' ∈ r <;>
        simp [reparse_field, _parse_field, hr, ht]
  · intro hr
    subst hr
    simp [reparse_field]

/-- Witness for `reparse_field_matches_parse` with an empty replacement. -/
theorem reparse_field_matches_parse_witness :
    reparse_field (_parse_field (strLit "PID-5") 5 (strLit "A^B~C")) [] =
      { _parse_field (strLit "PID-5") 5 (strLit "A^B~C") with
        raw_value := [], value := [], components := [], repetitions := [] } :=
  (reparse_field_matches_parse
    (_parse_field (strLit "PID-5") 5 (strLit "A^B~C")) []).2 rfl

/-- C7: `reparse_field` is idempotent — for a field whose derived state was
produced from its current `raw_value` (by a previous `reparse_field` or by
`_parse_field`), reparsing with that same `raw_value` changes nothing. -/
theorem reparse_field_idempotent (f : Field) (a : Str) (n : Nat) (r : Str) :
    reparse_field (reparse_field f r) ((reparse_field f r).raw_value) =
      reparse_field f r ∧
    reparse_field (_parse_field a n r) ((_parse_field a n r).raw_value) =
      _parse_field a n r := by
  constructor
  · by_cases hr : r = []
    · subst hr
      simp [reparse_field]
    · by_cases ht : '~' ∈ r <;>
        simp [reparse_field, hr, ht]
  · rw [parse_field_raw_value]
    by_cases hr : r = []
    · subst hr
      simp [reparse_field, _parse_field]
    · by_cases ht : '~' ∈ r <;>
        simp [reparse_field, _parse_field, hr, ht]

theorem buildFieldsFrom_length (mkA : Nat → Str) (n : Nat) (ts : List Str) :
    (buildFieldsFrom mkA n ts).length = ts.length := by
  induction ts generalizing n with
  | nil => rfl
  | cons t ts ih => simp [buildFieldsFrom, ih]

theorem buildFieldsFrom_getD (mkA : Nat → Str) (n : Nat) (ts : List Str)
    (i : Nat) (h : i < ts.length) :
    (buildFieldsFrom mkA n ts).getD i fldDefault =
      _parse_field (mkA (n + i)) (n + i) (ts.getD i []) := by
  induction ts generalizing n i with
  | nil => simp at h
  | cons t ts ih =>
    cases i with
    | zero => simp [buildFieldsFrom]
    | succ j =>
      have e1 : n + (j + 1) = n + 1 + j := by omega
      simp only [buildFieldsFrom, List.getD_cons_succ, e1]
      exact ih (n + 1) j (by simpa using h)

/-- C5: header (MSH) segments get a synthesized field 1 whose value and raw
value are the literal separator character, a verbatim field 2 with no
decomposition, and token `j ≥ 2` mapped to field number `j + 1`; non-header
segments map token `j ≥ 1` to field number `j`.  `rest` is the token list
after the segment code, so token `j` of the line is `rest.getD (j-1)`. -/
theorem msh_field_numbering (seg_name : Str) (rep : Nat) (rest : List Str) :
    (seg_name = strLit "MSH" →
      (buildSegFields seg_name rep rest).getD 0 fldDefault =
        ⟨1, strLit "MSH-1", ['|'], ['|'], [], []⟩ ∧
      (∀ t1 ts, rest = t1 :: ts →
        (buildSegFields seg_name rep rest).getD 1 fldDefault =
          ⟨2, strLit "MSH-2", t1, t1, [], []⟩) ∧
      (∀ j, 2 ≤ j → j < rest.length + 1 →
        ((buildSegFields seg_name rep rest).getD j fldDefault).field_num =
          j + 1 ∧
        ((buildSegFields seg_name rep rest).getD j fldDefault).raw_value =
          rest.getD (j - 1) [])) ∧
    (seg_name ≠ strLit "MSH" →
      ∀ j, 1 ≤ j → j ≤ rest.length →
        ((buildSegFields seg_name rep rest).getD (j - 1) fldDefault).field_num =
          j ∧
        ((buildSegFields seg_name rep rest).getD (j - 1) fldDefault).raw_value =
          rest.getD (j - 1) []) := by
  constructor
  · intro hm
    refine ⟨?_, ?_, ?_⟩
    · simp only [buildSegFields, if_pos hm]
      cases rest <;> rfl
    · intro t1 ts hrest
      subst hrest
      simp only [buildSegFields, if_pos hm]
      rfl
    · intro j h2 hj
      obtain ⟨t1, ts, rfl⟩ : ∃ t1 ts, rest = t1 :: ts := by
        cases rest with
        | nil => simp at hj; omega
        | cons t1 ts => exact ⟨t1, ts, rfl⟩
      simp only [buildSegFields, if_pos hm]
      obtain ⟨i, rfl⟩ : ∃ i, j = i + 2 := ⟨j - 2, by omega⟩
      have hi : i < ts.length := by
        simp only [List.length_cons] at hj
        omega
      have hstep :
          (mshField1 :: mshField2 t1 :: buildFieldsFrom mshAddr 3 ts).getD
            (i + 2) fldDefault =
          (buildFieldsFrom mshAddr 3 ts).getD i fldDefault := by
        simp
      rw [hstep, buildFieldsFrom_getD mshAddr 3 ts i hi]
      constructor
      · rw [parse_field_field_num]
        omega
      · rw [parse_field_raw_value]
        have : i + 2 - 1 = i + 1 := by omega
        rw [this]
        simp
  · intro hm j h1 hj
    simp only [buildSegFields, if_neg hm]
    obtain ⟨i, rfl⟩ : ∃ i, j = i + 1 := ⟨j - 1, by omega⟩
    have hi : i < rest.length := by omega
    have : i + 1 - 1 = i := by omega
    rw [this, buildFieldsFrom_getD _ 1 rest i hi]
    constructor
    · rw [parse_field_field_num]
      omega
    · rw [parse_field_raw_value]

/-- Witness for `msh_field_numbering` on a concrete MSH line and a concrete
PID line. -/
theorem msh_field_numbering_witness :
    (buildSegFields (strLit "MSH") 1
        [strLit "^~\\&", strLit "APP", strLit "FAC"]).getD 0 fldDefault =
      ⟨1, strLit "MSH-1", ['|'], ['|'], [], []⟩ ∧
    (buildSegFields (strLit "MSH") 1
        [strLit "^~\\&", strLit "APP", strLit "FAC"]).getD 1 fldDefault =
      ⟨2, strLit "MSH-2", strLit "^~\\&", strLit "^~\\&", [], []⟩ ∧
    ((buildSegFields (strLit "MSH") 1
        [strLit "^~\\&", strLit "APP", strLit "FAC"]).getD 2
        fldDefault).field_num = 3 ∧
    ((buildSegFields (strLit "PID") 1
        [strLit "1", strLit "2"]).getD 1 fldDefault).field_num = 2 :=
  ⟨((msh_field_numbering (strLit "MSH") 1
      [strLit "^~\\&", strLit "APP", strLit "FAC"]).1 rfl).1,
   ((msh_field_numbering (strLit "MSH") 1
      [strLit "^~\\&", strLit "APP", strLit "FAC"]).1 rfl).2.1
      (strLit "^~\\&") [strLit "APP", strLit "FAC"] rfl,
   (((msh_field_numbering (strLit "MSH") 1
      [strLit "^~\\&", strLit "APP", strLit "FAC"]).1 rfl).2.2 2
      (by decide) (by decide)).1,
   (((msh_field_numbering (strLit "PID") 1
      [strLit "1", strLit "2"]).2 (by decide) 2 (by decide) (by decide)).1)⟩

/-- C9: `normalize_message` is a total function (every case of its fallback
chain produces a list); empty input yields an empty list, and whenever
normalization yields an empty list the top-level `parse_hl7` reports the
absent-message result `none`. -/
theorem normalize_empty_parse_none :
    normalize_message [] = [] ∧
    (∀ raw : Str, normalize_message raw = [] → parse_hl7 raw = none) ∧
    parse_hl7 [] = none := by
  refine ⟨rfl, ?_, rfl⟩
  intro raw h
  simp [parse_hl7, h]

/-- Witness for `normalize_empty_parse_none` on whitespace-only input. -/
theorem normalize_empty_parse_none_witness :
    normalize_message (strLit "  \r\n ") = [] ∧
    parse_hl7 (strLit "  \r\n ") = none :=
  ⟨by decide,
   normalize_empty_parse_none.2.1 (strLit "  \r\n ") (by decide)⟩

/-- C3 fails on the code: a fragment that begins with the field-separator
character (here `|B` after the segment separator) is NOT merged back into
the previous fragment — `result_parts` is rejoined with the segment
separator and re-split, so the two fragments come out as two separate
segment lines; likewise a fragment beginning with a short line-break run
(here `\nB`) is emitted separately (only its leading line feeds are
stripped).  The intended merged results would have been `MSH|A|B` and
`MSH|AB`. -/
theorem normalize_merge_back_fails :
    normalize_message (strLit "MSH|A\r|B") =
      [strLit "MSH|A", strLit "|B"] ∧
    normalize_message (strLit "MSH|A\r\n\nB\rPID|1") =
      [strLit "MSH|A", strLit "B", strLit "PID|1"] := by
  constructor <;> decide

theorem buildFieldsFrom_map_raw (mkA : Nat → Str) (n : Nat) (ts : List Str) :
    (buildFieldsFrom mkA n ts).map (fun f => f.raw_value) = ts := by
  induction ts generalizing n with
  | nil => rfl
  | cons t ts ih =>
    simp [buildFieldsFrom, parse_field_raw_value, ih]

theorem buildFieldsFrom_fieldnum_ge (mkA : Nat → Str) (n : Nat) (ts : List Str) :
    ∀ f ∈ buildFieldsFrom mkA n ts, n ≤ f.field_num := by
  induction ts generalizing n with
  | nil => simp [buildFieldsFrom]
  | cons t ts ih =>
    intro f hf
    rcases List.mem_cons.mp hf with rfl | hf
    · rw [parse_field_field_num]
    · have := ih (n + 1) f hf
      omega

/-- C1 fails as stated on a line with no field separator: `MSH` alone is
passed through normalization unchanged and parses to one segment, but
rebuilding yields `MSH|`, not `MSH`. -/
theorem roundtrip_counterexample :
    normalize_message (strLit "MSH") = [strLit "MSH"] ∧
    ((parse_hl7 (strLit "MSH")).getD msgDefault).segments.length = 1 ∧
    rebuild_raw_line
      ((((parse_hl7 (strLit "MSH")).getD msgDefault).segments.getD 0
        segDefault).name)
      ((((parse_hl7 (strLit "MSH")).getD msgDefault).segments.getD 0
        segDefault).fields) = strLit "MSH|" ∧
    strLit "MSH|" ≠ strLit "MSH" := by
  refine ⟨by decide, by decide, by decide, by decide⟩

/-- C1, amended: for every segment line that contains the field separator,
is passed through `normalize_message` unchanged, and whose code token is at
least two characters long (so the parser accepts it), `parse_hl7` yields
exactly one segment and rebuilding it reproduces the line byte for byte,
trailing empty tokens included. -/
theorem roundtrip_amended (line seg_name : Str) (rest : List Str)
    (hsplit : splitOnChar '|' line = seg_name :: rest)
    (hrest : rest ≠ [])
    (hname : 2 ≤ seg_name.length)
    (hnorm : normalize_message line = [line]) :
    ∃ m : ParsedMessage, parse_hl7 line = some m ∧
      ∃ seg : Segment, m.segments = [seg] ∧
        rebuild_raw_line seg.name seg.fields = line := by
  have hlen : ¬ seg_name.length < 2 := by omega
  have hline : line = seg_name ++ '|' :: joinSep '|' rest := by
    have := joinSep_splitOnChar '|' line
    rw [hsplit] at this
    rcases rest with _ | ⟨r0, rs⟩
    · exact absurd rfl hrest
    · simpa [joinSep] using this.symm
  have hreb : rebuild_raw_line seg_name (buildSegFields seg_name 1 rest) =
      line := by
    by_cases hm : seg_name = strLit "MSH"
    · rcases rest with _ | ⟨t1, ts⟩
      · exact absurd rfl hrest
      · simp only [buildSegFields, if_pos hm, rebuild_raw_line]
        have hfil :
            (mshField1 :: mshField2 t1 ::
              buildFieldsFrom mshAddr 3 ts).filter
                (fun f => decide (f.field_num ≠ 1)) =
              mshField2 t1 :: buildFieldsFrom mshAddr 3 ts := by
          have h2 : (List.filter (fun f => decide (f.field_num ≠ 1))
              (buildFieldsFrom mshAddr 3 ts)) =
              buildFieldsFrom mshAddr 3 ts := by
            apply List.filter_eq_self.mpr
            intro f hf
            have h3 := buildFieldsFrom_fieldnum_ge mshAddr 3 ts f hf
            simpa using (by omega : f.field_num ≠ 1)
          simp [mshField1, mshField2, h2]
          intro f hf
          have h4 := buildFieldsFrom_fieldnum_ge mshAddr 3 ts f hf
          omega
        rw [hfil]
        simp only [List.map_cons, buildFieldsFrom_map_raw]
        have hr2 : (mshField2 t1).raw_value = t1 := rfl
        rw [hr2, hline, hm]
        simp [strLit, joinSep]
    · simp only [buildSegFields, if_neg hm, rebuild_raw_line]
      rw [buildFieldsFrom_map_raw]
      exact hline.symm
  by_cases hm : seg_name = strLit "MSH"
  · refine ⟨⟨[⟨seg_name, 1, buildSegFields seg_name 1 rest, line⟩],
      extractVersion ⟨seg_name, 1, buildSegFields seg_name 1 rest, line⟩ none,
      extractMsgType ⟨seg_name, 1, buildSegFields seg_name 1 rest, line⟩ none,
      extractCharset ⟨seg_name, 1, buildSegFields seg_name 1 rest, line⟩ none⟩,
      ?_, ⟨seg_name, 1, buildSegFields seg_name 1 rest, line⟩, rfl, hreb⟩
    simp only [parse_hl7, hnorm]
    rw [if_neg (by simp)]
    simp only [List.foldl_cons, List.foldl_nil, parseStep, hsplit]
    rw [if_neg hlen, if_pos hm]
    rfl
  · refine ⟨⟨[⟨seg_name, 1, buildSegFields seg_name 1 rest, line⟩],
      none, none, none⟩,
      ?_, ⟨seg_name, 1, buildSegFields seg_name 1 rest, line⟩, rfl, hreb⟩
    simp only [parse_hl7, hnorm]
    rw [if_neg (by simp)]
    simp only [List.foldl_cons, List.foldl_nil, parseStep, hsplit]
    rw [if_neg hlen, if_neg hm]
    rfl

/-- Witness for `roundtrip_amended` on a concrete PID line with trailing
empty tokens and on a concrete MSH line. -/
theorem roundtrip_amended_witness :
    (∃ m : ParsedMessage, parse_hl7 (strLit "PID|1||123^^^HOSP^PI||") = some m ∧
      ∃ seg : Segment, m.segments = [seg] ∧
        rebuild_raw_line seg.name seg.fields =
          strLit "PID|1||123^^^HOSP^PI||") ∧
    (∃ m : ParsedMessage, parse_hl7 (strLit "MSH|^~\\&|APP||") = some m ∧
      ∃ seg : Segment, m.segments = [seg] ∧
        rebuild_raw_line seg.name seg.fields = strLit "MSH|^~\\&|APP||") :=
  ⟨roundtrip_amended (strLit "PID|1||123^^^HOSP^PI||") (strLit "PID")
      [strLit "1", [], strLit "123^^^HOSP^PI", [], []]
      (by decide) (by decide) (by decide) (by decide),
   roundtrip_amended (strLit "MSH|^~\\&|APP||") (strLit "MSH")
      [strLit "^~\\&", strLit "APP", [], []]
      (by decide) (by decide) (by decide) (by decide)⟩

/-! ## C8: rep_index bookkeeping -/

/-- Number of segments with the given code. -/
def nameCount (segs : List Segment) (name : Str) : Nat :=
  segs.countP (fun s => decide (s.name = name))

/-- The `segment_counts` dict always holds the number of accepted segments
of each code. -/
def GoodCounts (st : ParseState) : Prop :=
  ∀ name, st.counts name = nameCount st.segs name

/-- Every accepted segment's `rep_index` is one more than the number of
earlier accepted segments with the same code. -/
def GoodIdx (segs : List Segment) : Prop :=
  ∀ i, i < segs.length →
    (segs.getD i segDefault).rep_index =
      nameCount (segs.take i) ((segs.getD i segDefault).name) + 1

theorem nameCount_append (a b : List Segment) (name : Str) :
    nameCount (a ++ b) name = nameCount a name + nameCount b name := by
  simp [nameCount, List.countP_append]

theorem goodIdx_append (segs : List Segment) (seg : Segment)
    (hg : GoodIdx segs)
    (hrep : seg.rep_index = nameCount segs seg.name + 1) :
    GoodIdx (segs ++ [seg]) := by
  intro i hi
  simp only [List.length_append, List.length_cons, List.length_nil] at hi
  rcases Nat.lt_or_ge i segs.length with hlt | hge
  · have hget : (segs ++ [seg]).getD i segDefault = segs.getD i segDefault := by
      simp [List.getD, List.getElem?_append_left hlt]
    have htake : (segs ++ [seg]).take i = segs.take i :=
      List.take_append_of_le_length (by omega)
    rw [hget, htake]
    exact hg i hlt
  · have hieq : i = segs.length := by omega
    subst hieq
    have hget : (segs ++ [seg]).getD segs.length segDefault = seg := by
      simp [List.getD, List.getElem?_append_right (Nat.le_refl _)]
    have htake : (segs ++ [seg]).take segs.length = segs := by
      rw [List.take_left]
    rw [hget, htake]
    exact hrep

theorem parseStep_preserves (st : ParseState) (line : Str)
    (hc : GoodCounts st) (hg : GoodIdx st.segs) :
    GoodCounts (parseStep st line) ∧ GoodIdx (parseStep st line).segs := by
  rcases hsp : splitOnChar '|' line with _ | ⟨seg_name, rest⟩
  · simp only [parseStep, hsp]
    exact ⟨hc, hg⟩
  · simp only [parseStep, hsp]
    by_cases hlen : seg_name.length < 2
    · rw [if_pos hlen]
      exact ⟨hc, hg⟩
    · rw [if_neg hlen]
      have hkey : ∀ (seg : Segment), seg.name = seg_name →
          seg.rep_index = st.counts seg_name + 1 →
          (∀ name, (if name = seg_name then st.counts seg_name + 1
              else st.counts name) = nameCount (st.segs ++ [seg]) name) ∧
          GoodIdx (st.segs ++ [seg]) := by
        intro seg hsname hsrep
        constructor
        · intro name
          rw [nameCount_append]
          by_cases hn : name = seg_name
          · subst hn
            rw [if_pos rfl, hc name]
            have : nameCount [seg] name = 1 := by
              simp [nameCount, List.countP_cons, hsname]
            omega
          · rw [if_neg hn, hc name]
            have : nameCount [seg] name = 0 := by
              simp [nameCount, List.countP_cons, hsname]
              exact fun h => absurd h.symm hn
            omega
        · exact goodIdx_append st.segs seg hg
            (by rw [hsrep, hsname, hc seg_name])
      by_cases hm : seg_name = strLit "MSH"
      · rw [if_pos hm]
        exact hkey ⟨seg_name, st.counts seg_name + 1,
          buildSegFields seg_name (st.counts seg_name + 1) rest, line⟩ rfl rfl
      · rw [if_neg hm]
        exact hkey ⟨seg_name, st.counts seg_name + 1,
          buildSegFields seg_name (st.counts seg_name + 1) rest, line⟩ rfl rfl

theorem foldl_parseStep_preserves (L : List Str) (st : ParseState)
    (hc : GoodCounts st) (hg : GoodIdx st.segs) :
    GoodCounts (L.foldl parseStep st) ∧ GoodIdx (L.foldl parseStep st).segs := by
  induction L generalizing st with
  | nil => exact ⟨hc, hg⟩
  | cons line L ih =>
    have h := parseStep_preserves st line hc hg
    simpa using ih (parseStep st line) h.1 h.2

/-- C8: within one `parse_hl7` call, every accepted segment's `rep_index`
equals the number of previously accepted segments with the same code plus
one, in document order.  (Being a pure function of its input, `parse_hl7`
shares no counter state across calls.) -/
theorem rep_index_is_occurrence_count (raw : Str) (m : ParsedMessage)
    (h : parse_hl7 raw = some m) :
    ∀ i, i < m.segments.length →
      (m.segments.getD i segDefault).rep_index =
        nameCount (m.segments.take i)
          ((m.segments.getD i segDefault).name) + 1 := by
  by_cases hn : normalize_message raw = []
  · simp [parse_hl7, hn] at h
  · have hm : m.segments = ((normalize_message raw).foldl parseStep initState).segs := by
      simp only [parse_hl7, if_neg hn] at h
      exact (congrArg ParsedMessage.segments (Option.some.inj h)).symm
    have hinit_c : GoodCounts initState := by
      intro name
      simp [initState, nameCount]
    have hinit_g : GoodIdx initState.segs := by
      intro i hi
      simp [initState] at hi
    have := foldl_parseStep_preserves (normalize_message raw) initState
      hinit_c hinit_g
    rw [hm]
    exact this.2

/-- Witness for `rep_index_is_occurrence_count`: three OBX segments
interleaved with other codes receive rep_index 1, 2, 3. -/
theorem rep_index_is_occurrence_count_witness :
    parse_hl7 (strLit "OBX|1\rNTE|n\rOBX|2\rZZZ|9\rOBX|3") =
      some ((parse_hl7 (strLit "OBX|1\rNTE|n\rOBX|2\rZZZ|9\rOBX|3")).getD
        msgDefault) ∧
    4 < ((parse_hl7 (strLit "OBX|1\rNTE|n\rOBX|2\rZZZ|9\rOBX|3")).getD
        msgDefault).segments.length ∧
    (((parse_hl7 (strLit "OBX|1\rNTE|n\rOBX|2\rZZZ|9\rOBX|3")).getD
        msgDefault).segments.getD 4 segDefault).rep_index =
      nameCount
        ((((parse_hl7 (strLit "OBX|1\rNTE|n\rOBX|2\rZZZ|9\rOBX|3")).getD
          msgDefault).segments.take 4))
        ((((parse_hl7 (strLit "OBX|1\rNTE|n\rOBX|2\rZZZ|9\rOBX|3")).getD
          msgDefault).segments.getD 4 segDefault).name) + 1 ∧
    (((parse_hl7 (strLit "OBX|1\rNTE|n\rOBX|2\rZZZ|9\rOBX|3")).getD
        msgDefault).segments.getD 4 segDefault).rep_index = 3 :=
  ⟨by decide, by decide,
   rep_index_is_occurrence_count (strLit "OBX|1\rNTE|n\rOBX|2\rZZZ|9\rOBX|3")
     ((parse_hl7 (strLit "OBX|1\rNTE|n\rOBX|2\rZZZ|9\rOBX|3")).getD msgDefault)
     (by decide) 4 (by decide),
   by decide⟩

/-! ## C2: the diff totals invariant and totality of diff_messages -/

/-- The design invariant on the running totals. -/
def SummaryInv (c : Summary) : Prop :=
  c.total_fields = c.identical + c.modified + c.a_only + c.b_only

theorem summaryInv_bumpIdentical (c : Summary) (h : SummaryInv c) :
    SummaryInv (bumpIdentical c) := by
  simp only [SummaryInv, bumpIdentical] at h ⊢
  omega

theorem summaryInv_bumpModified (c : Summary) (h : SummaryInv c) :
    SummaryInv (bumpModified c) := by
  simp only [SummaryInv, bumpModified] at h ⊢
  omega

theorem summaryInv_bumpAOnly (c : Summary) (h : SummaryInv c) :
    SummaryInv (bumpAOnly c) := by
  simp only [SummaryInv, bumpAOnly] at h ⊢
  omega

theorem summaryInv_bumpBOnly (c : Summary) (h : SummaryInv c) :
    SummaryInv (bumpBOnly c) := by
  simp only [SummaryInv, bumpBOnly] at h ⊢
  omega

theorem aOnlyLoop_inv (name : Str) (rep : Nat) (fs : List Field)
    (c : Summary) (h : SummaryInv c) :
    SummaryInv (aOnlyLoop name rep c fs).2 := by
  induction fs generalizing c with
  | nil => exact h
  | cons f fs ih =>
    simp only [aOnlyLoop]
    exact ih (bumpAOnly c) (summaryInv_bumpAOnly c h)

theorem bOnlyLoop_inv (name : Str) (rep : Nat) (fs : List Field)
    (c : Summary) (h : SummaryInv c) :
    SummaryInv (bOnlyLoop name rep c fs).2 := by
  induction fs generalizing c with
  | nil => exact h
  | cons f fs ih =>
    simp only [bOnlyLoop]
    exact ih (bumpBOnly c) (summaryInv_bumpBOnly c h)

theorem fieldLookup_isSome_of_mem (fields : List Field) (n : Nat)
    (h : ∃ f ∈ fields, f.field_num = n) : (fieldLookup fields n).isSome := by
  have aux : ∀ (fs : List Field) (acc : Option Field),
      ((∃ f ∈ fs, f.field_num = n) ∨ acc.isSome) →
      (fs.foldl (fun acc f => if f.field_num = n then some f else acc)
        acc).isSome := by
    intro fs
    induction fs with
    | nil =>
      intro acc hac
      rcases hac with ⟨f, hf, _⟩ | hs
      · simp at hf
      · simpa using hs
    | cons g gs ih =>
      intro acc hac
      simp only [List.foldl_cons]
      by_cases hg : g.field_num = n
      · exact ih (if g.field_num = n then some g else acc)
          (Or.inr (by rw [if_pos hg]; rfl))
      · rcases hac with ⟨f, hf, hfn⟩ | hs
        · rcases List.mem_cons.mp hf with rfl | hf2
          · exact absurd hfn hg
          · exact ih _ (Or.inl ⟨f, hf2, hfn⟩)
        · exact ih _ (Or.inr (by rw [if_neg hg]; exact hs))
  exact aux fields none (Or.inl h)

theorem segLookup_isSome_of_mem (segs : List Segment) (key : Str × Nat)
    (h : ∃ s ∈ segs, s.name = key.1 ∧ s.rep_index = key.2) :
    (segLookup segs key).isSome := by
  have aux : ∀ (ss : List Segment) (acc : Option Segment),
      ((∃ s ∈ ss, s.name = key.1 ∧ s.rep_index = key.2) ∨ acc.isSome) →
      (ss.foldl (fun acc s =>
        if s.name = key.1 ∧ s.rep_index = key.2 then some s else acc)
        acc).isSome := by
    intro ss
    induction ss with
    | nil =>
      intro acc hac
      rcases hac with ⟨s, hs, _⟩ | hs
      · simp at hs
      · simpa using hs
    | cons g gs ih =>
      intro acc hac
      simp only [List.foldl_cons]
      by_cases hg : g.name = key.1 ∧ g.rep_index = key.2
      · exact ih _ (Or.inr (by rw [if_pos hg]; rfl))
      · rcases hac with ⟨s, hs, hsk⟩ | hs
        · rcases List.mem_cons.mp hs with rfl | hs2
          · exact absurd hsk hg
          · exact ih _ (Or.inl ⟨s, hs2, hsk⟩)
        · exact ih _ (Or.inr (by rw [if_neg hg]; exact hs))
  exact aux segs none (Or.inl h)

theorem mem_insertSorted (x n : Nat) (l : List Nat)
    (h : x ∈ insertSorted n l) : x = n ∨ x ∈ l := by
  induction l with
  | nil => simpa [insertSorted] using h
  | cons m ms ih =>
    simp only [insertSorted] at h
    split at h
    · rcases List.mem_cons.mp h with rfl | h2
      · exact Or.inl rfl
      · exact Or.inr h2
    · rcases List.mem_cons.mp h with rfl | h2
      · exact Or.inr (List.mem_cons_self _ _)
      · rcases ih h2 with h3 | h3
        · exact Or.inl h3
        · exact Or.inr (List.mem_cons_of_mem _ h3)

theorem mem_sortNats (x : Nat) (l : List Nat) (h : x ∈ sortNats l) :
    x ∈ l := by
  induction l with
  | nil => simp [sortNats] at h
  | cons n ns ih =>
    simp only [sortNats] at h
    rcases mem_insertSorted x n (sortNats ns) h with rfl | h2
    · exact List.mem_cons_self _ _
    · exact List.mem_cons_of_mem _ (ih h2)

theorem mem_dedupNats (x : Nat) (l : List Nat) (h : x ∈ dedupNats l) :
    x ∈ l := by
  induction l with
  | nil => simp [dedupNats] at h
  | cons n ns ih =>
    simp only [dedupNats] at h
    split at h
    · exact List.mem_cons_of_mem _ (ih h)
    · rcases List.mem_cons.mp h with rfl | h2
      · exact List.mem_cons_self _ _
      · exact List.mem_cons_of_mem _ (ih h2)

theorem fnumsUnion_lookup (fa fb : List Field) (n : Nat)
    (h : n ∈ fnumsUnion fa fb) :
    (fieldLookup fa n).isSome ∨ (fieldLookup fb n).isSome := by
  have h1 := mem_dedupNats n _ (mem_sortNats n _ h)
  rcases List.mem_append.mp h1 with h2 | h2
  · obtain ⟨f, hf, hfn⟩ := List.mem_map.mp h2
    exact Or.inl (fieldLookup_isSome_of_mem fa n ⟨f, hf, hfn⟩)
  · obtain ⟨f, hf, hfn⟩ := List.mem_map.mp h2
    exact Or.inr (fieldLookup_isSome_of_mem fb n ⟨f, hf, hfn⟩)

theorem mem_addBKeys (k : Str × Nat) (acc ks : List (Str × Nat))
    (h : k ∈ addBKeys acc ks) : k ∈ acc ∨ k ∈ ks := by
  induction ks generalizing acc with
  | nil => exact Or.inl (by simpa [addBKeys] using h)
  | cons k2 ks ih =>
    simp only [addBKeys] at h
    split at h
    · rcases ih acc h with h2 | h2
      · exact Or.inl h2
      · exact Or.inr (List.mem_cons_of_mem _ h2)
    · rcases ih (acc ++ [k2]) h with h2 | h2
      · rcases List.mem_append.mp h2 with h3 | h3
        · exact Or.inl h3
        · simp only [List.mem_singleton] at h3
          exact Or.inr (h3 ▸ List.mem_cons_self _ _)
      · exact Or.inr (List.mem_cons_of_mem _ h2)

theorem segKeys_lookup (m : ParsedMessage) (k : Str × Nat)
    (h : k ∈ segKeys m) : (segLookup m.segments k).isSome := by
  obtain ⟨s, hs, hk⟩ := List.mem_map.mp h
  refine segLookup_isSome_of_mem m.segments k ⟨s, hs, ?_, ?_⟩
  · rw [← hk]
  · rw [← hk]

theorem bothLoop_some_inv (name : Str) (rep : Nat) (fa fb : List Field)
    (fnums : List Nat)
    (hmem : ∀ n ∈ fnums, (fieldLookup fa n).isSome ∨ (fieldLookup fb n).isSome) :
    ∀ (st : Str) (c : Summary), SummaryInv c →
      ∃ r, bothLoop name rep fa fb st c fnums = some r ∧ SummaryInv r.2.2 := by
  induction fnums with
  | nil =>
    intro st c h
    exact ⟨([], st, c), rfl, h⟩
  | cons n rest ih =>
    intro st c h
    have hmem_rest : ∀ k ∈ rest,
        (fieldLookup fa k).isSome ∨ (fieldLookup fb k).isSome :=
      fun k hk => hmem k (List.mem_cons_of_mem _ hk)
    have hn := hmem n (List.mem_cons_self _ _)
    rcases ha : fieldLookup fa n with _ | a <;>
      rcases hb : fieldLookup fb n with _ | b
    · rw [ha, hb] at hn
      simp at hn
    · obtain ⟨r, hr, hri⟩ := ih hmem_rest stModified (bumpBOnly c)
        (summaryInv_bumpBOnly c h)
      refine ⟨(⟨mkAddress name rep n, n, stBOnly, none, some b.raw_value,
        none, some b⟩ :: r.1, r.2.1, r.2.2), ?_, hri⟩
      simp only [bothLoop, ha, hb, hr, Option.map_some]
      rfl
    · obtain ⟨r, hr, hri⟩ := ih hmem_rest stModified (bumpAOnly c)
        (summaryInv_bumpAOnly c h)
      refine ⟨(⟨mkAddress name rep n, n, stAOnly, some a.raw_value, none,
        some a, none⟩ :: r.1, r.2.1, r.2.2), ?_, hri⟩
      simp only [bothLoop, ha, hb, hr, Option.map_some]
      rfl
    · by_cases hv : a.raw_value = b.raw_value
      · obtain ⟨r, hr, hri⟩ := ih hmem_rest st (bumpIdentical c)
          (summaryInv_bumpIdentical c h)
        refine ⟨(⟨mkAddress name rep n, n, stIdentical, some a.raw_value,
          some b.raw_value, some a, some b⟩ :: r.1, r.2.1, r.2.2), ?_, hri⟩
        simp only [bothLoop, ha, hb, if_pos hv, hr, Option.map_some]
        rfl
      · obtain ⟨r, hr, hri⟩ := ih hmem_rest stModified (bumpModified c)
          (summaryInv_bumpModified c h)
        refine ⟨(⟨mkAddress name rep n, n, stModified, some a.raw_value,
          some b.raw_value, some a, some b⟩ :: r.1, r.2.1, r.2.2), ?_, hri⟩
        simp only [bothLoop, ha, hb, if_neg hv, hr, Option.map_some]
        rfl

theorem diffKeysLoop_some_inv (pa pb : ParsedMessage)
    (keys : List (Str × Nat))
    (hmem : ∀ k ∈ keys,
      (segLookup pa.segments k).isSome ∨ (segLookup pb.segments k).isSome) :
    ∀ (c : Summary), SummaryInv c →
      ∃ r, diffKeysLoop pa pb c keys = some r ∧ SummaryInv r.2 := by
  induction keys with
  | nil =>
    intro c h
    exact ⟨([], c), rfl, h⟩
  | cons key rest ih =>
    intro c h
    have hmem_rest : ∀ k ∈ rest,
        (segLookup pa.segments k).isSome ∨ (segLookup pb.segments k).isSome :=
      fun k hk => hmem k (List.mem_cons_of_mem _ hk)
    have hk := hmem key (List.mem_cons_self _ _)
    rcases ha : segLookup pa.segments key with _ | sa <;>
      rcases hb : segLookup pb.segments key with _ | sb
    · rw [ha, hb] at hk
      simp at hk
    · obtain ⟨r, hr, hri⟩ := ih hmem_rest
        (bOnlyLoop key.1 key.2 c sb.fields).2
        (bOnlyLoop_inv key.1 key.2 sb.fields c h)
      refine ⟨(⟨key.1, key.2, stBOnly,
        (bOnlyLoop key.1 key.2 c sb.fields).1⟩ :: r.1, r.2), ?_, hri⟩
      simp only [diffKeysLoop, ha, hb, hr, Option.map_some]
      rfl
    · obtain ⟨r, hr, hri⟩ := ih hmem_rest
        (aOnlyLoop key.1 key.2 c sa.fields).2
        (aOnlyLoop_inv key.1 key.2 sa.fields c h)
      refine ⟨(⟨key.1, key.2, stAOnly,
        (aOnlyLoop key.1 key.2 c sa.fields).1⟩ :: r.1, r.2), ?_, hri⟩
      simp only [diffKeysLoop, ha, hb, hr, Option.map_some]
      rfl
    · obtain ⟨rb, hrb, hrbi⟩ := bothLoop_some_inv key.1 key.2
        sa.fields sb.fields (fnumsUnion sa.fields sb.fields)
        (fnumsUnion_lookup sa.fields sb.fields) stIdentical c h
      obtain ⟨r, hr, hri⟩ := ih hmem_rest rb.2.2 hrbi
      refine ⟨(⟨key.1, key.2, rb.2.1, rb.1⟩ :: r.1, r.2), ?_, hri⟩
      simp only [diffKeysLoop, ha, hb, hrb, hr, Option.map_some]
      rfl

/-- C2: for every pair of parsed messages — disjoint segment sets and empty
sides included — `diff_messages` produces a report (it has no failure
path), and the report's summary satisfies
`total_fields = identical + modified + a_only + b_only`. -/
theorem diff_total_invariant (pa pb : ParsedMessage) :
    ∃ d, diff_messages pa pb = some d ∧
      d.summary.total_fields =
        d.summary.identical + d.summary.modified +
          d.summary.a_only + d.summary.b_only := by
  have hmem : ∀ k ∈ addBKeys (segKeys pa) (segKeys pb),
      (segLookup pa.segments k).isSome ∨ (segLookup pb.segments k).isSome := by
    intro k hk
    rcases mem_addBKeys k (segKeys pa) (segKeys pb) hk with h | h
    · exact Or.inl (segKeys_lookup pa k h)
    · exact Or.inr (segKeys_lookup pb k h)
  obtain ⟨r, hr, hri⟩ := diffKeysLoop_some_inv pa pb
    (addBKeys (segKeys pa) (segKeys pb)) hmem ⟨0, 0, 0, 0, 0⟩ (by rfl)
  refine ⟨⟨r.1, r.2, pa.version, pb.version, pa.message_type, pb.message_type⟩,
    ?_, hri⟩
  simp only [diff_messages, hr]

end HL7
